import Mathlib

/-!
Verification of the integer run-codec (encodeVector / decodeVector and their
4-byte variants) and of the packed binary codec of MistServer lib/json.h.

Byte strings (C++ std::string) are modelled as lists of octet values
(naturals below 256); a char cast that narrows a value to one byte is
written as a reduction modulo 256.  The generic iterator range of the
encoders is modelled as a list of naturals (the claims quantify over
sequences of non-negative integers; values below 2^63 are unchanged by the
conversion to long long int that the source performs).  The decoders keep
their accumulator in an unsigned int, modelled as arithmetic modulo 2^32,
and indexing past the end of the input is modelled by returning none.
-/

namespace JSON

/-- The inner loop of encodeVector (lib/json.h lines 158-165) for one input
value: while the value is at least 0xFFFF, two 0xFF bytes are appended and
0xFFFF is subtracted; then the remainder is appended as one 2-byte
big-endian field. -/
def encodeOne (tmp : Nat) : List Nat :=
  if h : 65535 ≤ tmp then 255 :: 255 :: encodeOne (tmp - 65535)
  else [tmp / 256 % 256, tmp % 256]
termination_by tmp
decreasing_by omega

/-- encodeVector (lib/json.h lines 154-168): concatenation of the per-value
encodings over the input sequence. -/
def encodeVector (s : List Nat) : List Nat :=
  (s.map encodeOne).flatten

/-- The loop of decodeVector (lib/json.h lines 173-181), two input bytes per
iteration; the accumulator tmp is an unsigned int, so every addition is
reduced modulo 2^32.  Reading input at index i + 1 when only one byte is
left is out of range, modelled as none. -/
def decodeGo : List Nat → Nat → Option (List Nat)
  | [], _ => some []
  | [_], _ => none
  | b0 :: b1 :: rest, tmp =>
    let curLen : Nat := b0 * 256 + b1
    let t : Nat := (tmp + curLen) % 4294967296
    if curLen ≠ 65535 then
      match decodeGo rest 0 with
      | some r => some (t :: r)
      | none => none
    else decodeGo rest t

/-- decodeVector (lib/json.h lines 170-182).  The first statement of the
source clears the result container, so the prior contents of result are
discarded and decoding starts from an empty container with accumulator 0. -/
def decodeVector (input : List Nat) (result : List Nat) : Option (List Nat) :=
  decodeGo input 0

/-- The inner loop of encodeVector4 (lib/json.h lines 188-199) for one input
value: while the value is at least 0xFFFFFFFF, four 0xFF bytes are appended
and 0xFFFFFFFF is subtracted; then the remainder is appended as one 4-byte
big-endian field (the mask-and-shift expressions of the source equal the
div / mod forms used here). -/
def encodeOne4 (tmp : Nat) : List Nat :=
  if h : 4294967295 ≤ tmp then
    255 :: 255 :: 255 :: 255 :: encodeOne4 (tmp - 4294967295)
  else [tmp / 16777216 % 256, tmp / 65536 % 256, tmp / 256 % 256, tmp % 256]
termination_by tmp
decreasing_by omega

/-- encodeVector4 (lib/json.h lines 184-202). -/
def encodeVector4 (s : List Nat) : List Nat :=
  (s.map encodeOne4).flatten

/-- The loop of decodeVector4 (lib/json.h lines 207-215), four input bytes
per iteration, accumulator reduced modulo 2^32; reading past the end of the
input is modelled as none. -/
def decodeGo4 : List Nat → Nat → Option (List Nat)
  | [], _ => some []
  | [_], _ => none
  | [_, _], _ => none
  | [_, _, _], _ => none
  | b0 :: b1 :: b2 :: b3 :: rest, tmp =>
    let curLen : Nat := b0 * 16777216 + b1 * 65536 + b2 * 256 + b3
    let t : Nat := (tmp + curLen) % 4294967296
    if curLen ≠ 4294967295 then
      match decodeGo4 rest 0 with
      | some r => some (t :: r)
      | none => none
    else decodeGo4 rest t

/-- decodeVector4 (lib/json.h lines 204-216); as in decodeVector, the result
container is cleared first. -/
def decodeVector4 (input : List Nat) (result : List Nat) : Option (List Nat) :=
  decodeGo4 input 0

/-- The per-value encoding as the specification section 4.2 words it: a run
of MAX fields, one for each subtraction of MAX = 0xFFFF, followed by one
terminating big-endian field holding the remainder. -/
def encodeOneSpec (v : Nat) : List Nat :=
  List.flatten (List.replicate (v / 65535) [255, 255]) ++ [v % 65535 / 256, v % 65535 % 256]

/-- The per-value encoding as the specification words it, at field width 4
and MAX = 0xFFFFFFFF. -/
def encodeOneSpec4 (v : Nat) : List Nat :=
  List.flatten (List.replicate (v / 4294967295) [255, 255, 255, 255]) ++
    [v % 4294967295 / 16777216 % 256, v % 4294967295 / 65536 % 256,
     v % 4294967295 / 256 % 256, v % 4294967295 % 256]

/-- The decode algorithm exactly as the specification section 4.2 words it:
fields are read as 2-byte big-endian numbers, consecutive MAX fields are
accumulated into an unbounded running sum, and a field strictly below MAX is
added to the sum and the total emitted as one decoded value.  This is the
specification-side definition used to compare against decodeGo. -/
def decodeSpecGo : List Nat → Nat → Option (List Nat)
  | [], _ => some []
  | [_], _ => none
  | b0 :: b1 :: rest, tmp =>
    let curLen : Nat := b0 * 256 + b1
    if curLen ≠ 65535 then
      match decodeSpecGo rest 0 with
      | some r => some ((tmp + curLen) :: r)
      | none => none
    else decodeSpecGo rest (tmp + curLen)

/-- Specification-side decode of a whole input string. -/
def decodeVectorSpec (input : List Nat) : Option (List Nat) :=
  decodeSpecGo input 0

/-- Reads a byte string as the sequence of 2-byte big-endian fields it
consists of (used to state properties about the field structure of an
encoding). -/
def toFields2 : List Nat → List Nat
  | b0 :: b1 :: rest => (b0 * 256 + b1) :: toFields2 rest
  | _ => []

/-- Modelled from the spec: the JSON::Value data model of specification
section 3 (the bodies of the Value member functions are not under src, only
their declarations in lib/json.h).  A Value is a tagged union: Null, Bool,
a 64-bit signed Integer, a Double (carried here as its 64-bit payload bit
pattern, which is what the packed codec transports), a binary-safe String
of bytes, an Array of Values, or an Object mapping byte-wise-ordered keys
to Values (represented as its key-sorted entry list). -/
inductive Value where
  | null
  | bool (b : Bool)
  | int (i : Int)
  | dbl (bits : Nat)
  | str (s : List Nat)
  | arr (items : List Value)
  | obj (entries : List (List Nat × Value))

/-- Big-endian fixed-width byte encoding of a natural number: w bytes, most
significant first (the value is taken modulo 256 ^ w). -/
def natToBytesBE : Nat → Nat → List Nat
  | 0, _ => []
  | w + 1, n => n / 256 ^ w % 256 :: natToBytesBE w n

/-- Big-endian value of a byte string. -/
def fromBytesBE (l : List Nat) : Nat :=
  l.foldl (fun a b => a * 256 + b) 0

mutual

/-- Modelled from the spec: toPacked (specification section 4.3; the body is
not under src).  A Value is encoded as a one-byte tag marker followed by a
tag-specific payload: integers and doubles as 8-byte big-endian fields (the
integer in two's complement), strings as a 4-byte big-endian length prefix
plus the raw bytes, arrays as the encoded children terminated by the end
marker byte 238, and objects as, per entry, a 2-byte big-endian key length,
the key bytes and the encoded child, terminated by the reserved key length
65535.  The concrete marker values are not recoverable from the
declarations alone; distinct values were fixed here. -/
def toPacked : Value → List Nat
  | .null => [0]
  | .bool b => [1, if b then 1 else 0]
  | .int i => 2 :: natToBytesBE 8 (i % 18446744073709551616).toNat
  | .dbl bits => 3 :: natToBytesBE 8 bits
  | .str s => 4 :: (natToBytesBE 4 s.length ++ s)
  | .arr items => 5 :: (packItems items ++ [238])
  | .obj entries => 6 :: (packEntries entries ++ [255, 255])

/-- Encoding of the children of an array, in order. -/
def packItems : List Value → List Nat
  | [] => []
  | v :: rest => toPacked v ++ packItems rest

/-- Encoding of the entries of an object: each child key as a
length-prefixed string interleaved before the child encoding. -/
def packEntries : List (List Nat × Value) → List Nat
  | [] => []
  | (k, v) :: rest => natToBytesBE 2 k.length ++ k ++ toPacked v ++ packEntries rest

end

mutual

/-- Modelled from the spec: packedSize (specification section 4.3; the body
is not under src) computes the exact encoded byte length of a Value without
materializing the bytes. -/
def packedSize : Value → Nat
  | .null => 1
  | .bool _ => 2
  | .int _ => 9
  | .dbl _ => 9
  | .str s => 5 + s.length
  | .arr items => 2 + sizeItems items
  | .obj entries => 3 + sizeEntries entries

/-- Encoded byte length of the children of an array. -/
def sizeItems : List Value → Nat
  | [] => 0
  | v :: rest => packedSize v + sizeItems rest

/-- Encoded byte length of the entries of an object. -/
def sizeEntries : List (List Nat × Value) → Nat
  | [] => 0
  | (k, v) :: rest => 2 + k.length + packedSize v + sizeEntries rest

end

/-- Reads a w-byte big-endian field from the front of a byte string,
returning none when fewer than w bytes remain. -/
def readBE (w : Nat) (l : List Nat) : Option (Nat × List Nat) :=
  if w ≤ l.length then some (fromBytesBE (l.take w), l.drop w) else none

/-- Byte-wise lexicographic strict order on keys, the order of std::string
comparison that the object mapping of the source is keyed by. -/
def ltBytes : List Nat → List Nat → Bool
  | [], [] => false
  | [], _ :: _ => true
  | _ :: _, [] => false
  | a :: as, b :: bs => if a < b then true else if b < a then false else ltBytes as bs

/-- Strict byte-wise sortedness of an object key list (unique, ascending). -/
def keysSorted : List (List Nat) → Bool
  | [] => true
  | [_] => true
  | k1 :: k2 :: rest => ltBytes k1 k2 && keysSorted (k2 :: rest)

mutual

/-- The Values constructible from the data model of specification section 3:
the integer payload fits a 64-bit signed integer, the double payload is a
64-bit bit pattern, strings are byte strings shorter than 2^32, object keys
are byte strings shorter than the reserved key length 65535 and strictly
byte-wise sorted, and all children are again constructible. -/
def wfValue : Value → Bool
  | .null => true
  | .bool _ => true
  | .int i => decide (-9223372036854775808 ≤ i ∧ i < 9223372036854775808)
  | .dbl bits => decide (bits < 18446744073709551616)
  | .str s => decide (s.length < 4294967296) && s.all (fun b => decide (b < 256))
  | .arr items => wfItems items
  | .obj entries => keysSorted (entries.map Prod.fst) && wfEntries entries

/-- Constructibility of a list of array children. -/
def wfItems : List Value → Bool
  | [] => true
  | v :: rest => wfValue v && wfItems rest

/-- Constructibility of a list of object entries. -/
def wfEntries : List (List Nat × Value) → Bool
  | [] => true
  | (k, v) :: rest =>
    decide (k.length < 65535) && k.all (fun b => decide (b < 256)) &&
      wfValue v && wfEntries rest

end

mutual

/-- Modelled from the spec: the decoding direction of the packed codec
(fromPacked, specification section 4.3; the body is not under src), as a
total recursive descent on the byte string.  The first argument is fuel
bounding the recursion depth; truncated or malformed input yields none.
Parses one tagged value and returns it with the unconsumed remainder. -/
def parseVal : Nat → List Nat → Option (Value × List Nat)
  | 0, _ => none
  | _ + 1, [] => none
  | fuel + 1, t :: rest =>
    if t = 0 then some (.null, rest)
    else if t = 1 then
      match rest with
      | b :: r => some (.bool (b != 0), r)
      | [] => none
    else if t = 2 then
      match readBE 8 rest with
      | some (n, r) =>
        some (.int (if n < 9223372036854775808 then (n : Int)
                    else (n : Int) - 18446744073709551616), r)
      | none => none
    else if t = 3 then
      match readBE 8 rest with
      | some (n, r) => some (.dbl n, r)
      | none => none
    else if t = 4 then
      match readBE 4 rest with
      | some (n, r) =>
        if n ≤ r.length then some (.str (r.take n), r.drop n) else none
      | none => none
    else if t = 5 then
      match parseItems fuel rest with
      | some (l, r) => some (.arr l, r)
      | none => none
    else if t = 6 then
      match parseEntries fuel rest with
      | some (l, r) => some (.obj l, r)
      | none => none
    else none

/-- Parses array children until the end marker byte 238. -/
def parseItems : Nat → List Nat → Option (List Value × List Nat)
  | 0, _ => none
  | _ + 1, [] => none
  | fuel + 1, b :: rest =>
    if b = 238 then some ([], rest)
    else
      match parseVal fuel (b :: rest) with
      | some (v, r) =>
        match parseItems fuel r with
        | some (l, r2) => some (v :: l, r2)
        | none => none
      | none => none

/-- Parses object entries until the reserved key length 65535. -/
def parseEntries : Nat → List Nat → Option (List (List Nat × Value) × List Nat)
  | 0, _ => none
  | fuel + 1, input =>
    match readBE 2 input with
    | some (klen, r) =>
      if klen = 65535 then some ([], r)
      else if klen ≤ r.length then
        match parseVal fuel (r.drop klen) with
        | some (v, r2) =>
          match parseEntries fuel r2 with
          | some (l, r3) => some ((r.take klen, v) :: l, r3)
          | none => none
        | none => none
      else none
    | none => none

end

/-- Modelled from the spec: fromPacked decodes a packed byte string back
into a Value (none on malformed input).  The input length bounds the
recursion depth, since every recursive step consumes at least one byte. -/
def fromPacked (input : List Nat) : Option Value :=
  match parseVal (input.length + 1) input with
  | some (v, _) => some v
  | none => none

mutual

/-- Fuel sufficient for parseVal to parse the encoding of a given Value. -/
def needV : Value → Nat
  | .null => 1
  | .bool _ => 1
  | .int _ => 1
  | .dbl _ => 1
  | .str _ => 1
  | .arr items => needItems items + 1
  | .obj entries => needEntries entries + 1

/-- Fuel sufficient for parseItems on the encoding of an item list. -/
def needItems : List Value → Nat
  | [] => 1
  | v :: rest => max (needV v) (needItems rest) + 1

/-- Fuel sufficient for parseEntries on the encoding of an entry list. -/
def needEntries : List (List Nat × Value) → Nat
  | [] => 1
  | (_, v) :: rest => max (needV v) (needEntries rest) + 1

end

/-! Helper lemmas about the run-codec. -/

theorem encodeOne_step (v : Nat) (h : 65535 ≤ v) :
    encodeOne v = 255 :: 255 :: encodeOne (v - 65535) := by
  rw [encodeOne]
  rw [dif_pos h]

theorem encodeOne_base (v : Nat) (h : ¬ 65535 ≤ v) :
    encodeOne v = [v / 256 % 256, v % 256] := by
  rw [encodeOne]
  rw [dif_neg h]

theorem encodeOne_eq_spec (v : Nat) : encodeOne v = encodeOneSpec v := by
  induction v using Nat.strong_induction_on with
  | _ v ih =>
    by_cases h : 65535 ≤ v
    · have hq : v / 65535 = (v - 65535) / 65535 + 1 := Nat.div_eq_sub_div (by omega) h
      have hm : v % 65535 = (v - 65535) % 65535 := Nat.mod_eq_sub_mod h
      rw [encodeOne_step v h, ih (v - 65535) (by omega), encodeOneSpec, encodeOneSpec,
        hq, hm, List.replicate_succ, List.flatten_cons, List.append_assoc,
        List.cons_append, List.cons_append, List.nil_append]
    · have h1 : v / 65535 = 0 := Nat.div_eq_of_lt (by omega)
      have h2 : v % 65535 = v := Nat.mod_eq_of_lt (by omega)
      have h3 : v / 256 % 256 = v / 256 := Nat.mod_eq_of_lt (by omega)
      rw [encodeOne_base v h, encodeOneSpec, h1, h2, h3]
      simp

theorem encodeVector_cons (v : Nat) (s : List Nat) :
    encodeVector (v :: s) = encodeOne v ++ encodeVector s := by
  simp [encodeVector]

theorem decodeGo_cons (b0 b1 : Nat) (rest : List Nat) (tmp : Nat) :
    decodeGo (b0 :: b1 :: rest) tmp =
      if b0 * 256 + b1 ≠ 65535 then
        (match decodeGo rest 0 with
         | some r => some (((tmp + (b0 * 256 + b1)) % 4294967296) :: r)
         | none => none)
      else decodeGo rest ((tmp + (b0 * 256 + b1)) % 4294967296) := by
  rw [decodeGo]

theorem decodeGo_max (rest : List Nat) (tmp : Nat) :
    decodeGo (255 :: 255 :: rest) tmp = decodeGo rest ((tmp + 65535) % 4294967296) := by
  rw [decodeGo_cons]
  norm_num

theorem decodeGo_term (b0 b1 : Nat) (rest : List Nat) (tmp : Nat)
    (h : b0 * 256 + b1 ≠ 65535) :
    decodeGo (b0 :: b1 :: rest) tmp =
      Option.map (fun r => ((tmp + (b0 * 256 + b1)) % 4294967296) :: r)
        (decodeGo rest 0) := by
  rw [decodeGo_cons, if_pos h]
  cases decodeGo rest 0 <;> rfl

theorem decodeGo_run (q : Nat) (rest : List Nat) (tmp : Nat) (h : tmp < 4294967296) :
    decodeGo (List.flatten (List.replicate q [255, 255]) ++ rest) tmp =
      decodeGo rest ((tmp + q * 65535) % 4294967296) := by
  induction q generalizing tmp with
  | zero => simp [Nat.mod_eq_of_lt h]
  | succ n ih =>
    rw [List.replicate_succ, List.flatten_cons]
    simp only [List.append_assoc, List.cons_append, List.nil_append]
    rw [decodeGo_max, ih ((tmp + 65535) % 4294967296) (Nat.mod_lt _ (by norm_num))]
    have harg : ((tmp + 65535) % 4294967296 + n * 65535) % 4294967296 =
        (tmp + (n + 1) * 65535) % 4294967296 := by omega
    rw [harg]

theorem decodeGo_encodeOne (v : Nat) (rest : List Nat) (h : v < 4294967296) :
    decodeGo (encodeOne v ++ rest) 0 =
      Option.map (fun r => v :: r) (decodeGo rest 0) := by
  rw [encodeOne_eq_spec]
  unfold encodeOneSpec
  rw [List.append_assoc, decodeGo_run (v / 65535) _ 0 (by norm_num)]
  simp only [List.cons_append, List.nil_append]
  rw [decodeGo_term _ _ _ _ (by omega)]
  congr 1
  funext r
  congr 1
  omega

theorem decodeGo_encodeVector (s : List Nat) (rest : List Nat)
    (h : ∀ v ∈ s, v < 4294967296) :
    decodeGo (encodeVector s ++ rest) 0 =
      Option.map (fun r => s ++ r) (decodeGo rest 0) := by
  induction s with
  | nil =>
    cases h2 : decodeGo rest 0 <;> simp [encodeVector, h2]
  | cons v tl ih =>
    rw [encodeVector_cons, List.append_assoc,
      decodeGo_encodeOne v _ (h v (by simp)),
      ih (fun x hx => h x (by simp [hx]))]
    cases decodeGo rest 0 <;> rfl

theorem roundTrip2 (s : List Nat) (h : ∀ v ∈ s, v < 4294967296) :
    decodeGo (encodeVector s) 0 = some s := by
  have h1 := decodeGo_encodeVector s [] h
  rw [List.append_nil] at h1
  rw [h1]
  simp [decodeGo]

theorem decodeSpecGo_cons (b0 b1 : Nat) (rest : List Nat) (tmp : Nat) :
    decodeSpecGo (b0 :: b1 :: rest) tmp =
      if b0 * 256 + b1 ≠ 65535 then
        (match decodeSpecGo rest 0 with
         | some r => some ((tmp + (b0 * 256 + b1)) :: r)
         | none => none)
      else decodeSpecGo rest (tmp + (b0 * 256 + b1)) := by
  rw [decodeSpecGo]

theorem decodeSpecGo_run (q : Nat) (rest : List Nat) (tmp : Nat) :
    decodeSpecGo (List.flatten (List.replicate q [255, 255]) ++ rest) tmp =
      decodeSpecGo rest (tmp + q * 65535) := by
  induction q generalizing tmp with
  | zero => simp
  | succ n ih =>
    rw [List.replicate_succ, List.flatten_cons]
    simp only [List.append_assoc, List.cons_append, List.nil_append]
    rw [decodeSpecGo_cons]
    norm_num
    rw [ih (tmp + 65535)]
    have harg : tmp + 65535 + n * 65535 = tmp + (n + 1) * 65535 := by omega
    rw [harg]

theorem decodeGo_eq_specGo (l : List Nat) (t : Nat) :
    decodeGo l (t % 4294967296) =
      Option.map (List.map (fun x => x % 4294967296)) (decodeSpecGo l t) := by
  match l with
  | [] => simp [decodeGo, decodeSpecGo]
  | [b] => simp [decodeGo, decodeSpecGo]
  | b0 :: b1 :: rest =>
    rw [decodeGo_cons, decodeSpecGo_cons]
    by_cases hc : b0 * 256 + b1 = 65535
    · rw [if_neg (by omega), if_neg (by omega)]
      have harg : t % 4294967296 + (b0 * 256 + b1) = (t + (b0 * 256 + b1)) % 4294967296 +
          ((t + (b0 * 256 + b1)) / 4294967296 -
            t / 4294967296) * 4294967296 := by omega
      have h2 : (t % 4294967296 + (b0 * 256 + b1)) % 4294967296 =
          (t + (b0 * 256 + b1)) % 4294967296 := by omega
      rw [h2]
      exact decodeGo_eq_specGo rest (t + (b0 * 256 + b1))
    · rw [if_pos hc, if_pos hc]
      have h0 : (0 : Nat) % 4294967296 = 0 := by norm_num
      have ih := decodeGo_eq_specGo rest 0
      rw [h0] at ih
      rw [ih]
      cases decodeSpecGo rest 0 with
      | none => rfl
      | some r =>
        simp only [Option.map_some]
        have h2 : (t % 4294967296 + (b0 * 256 + b1)) % 4294967296 =
            (t + (b0 * 256 + b1)) % 4294967296 := by omega
        simp [h2]

theorem decodeGo_isSome (l : List Nat) (tmp : Nat) :
    (decodeGo l tmp).isSome = true ↔ l.length % 2 = 0 := by
  match l with
  | [] => simp [decodeGo]
  | [b] => simp [decodeGo]
  | b0 :: b1 :: rest =>
    rw [decodeGo_cons]
    have ih0 := decodeGo_isSome rest 0
    have hlen : (b0 :: b1 :: rest).length % 2 = rest.length % 2 := by
      simp [List.length]
      omega
    rw [hlen]
    by_cases hc : b0 * 256 + b1 = 65535
    · rw [if_neg (by omega)]
      exact decodeGo_isSome rest _
    · rw [if_pos hc]
      cases hrest : decodeGo rest 0 with
      | none => simpa [hrest] using ih0
      | some r => simpa [hrest] using ih0

theorem decodeGo_trailing (x : List Nat) (tmp : Nat) (k : Nat) (h : tmp < 4294967296) :
    decodeGo (x ++ List.flatten (List.replicate k [255, 255])) tmp = decodeGo x tmp := by
  match x with
  | [] =>
    rw [List.nil_append]
    have h1 := decodeGo_run k [] tmp h
    rw [List.append_nil] at h1
    rw [h1]
    simp [decodeGo]
  | [b] =>
    have hodd : (b :: List.flatten (List.replicate k [255, 255])).length % 2 = 1 := by
      simp [List.length_flatten, List.map_replicate]
      omega
    have h1 := decodeGo_isSome (b :: List.flatten (List.replicate k [255, 255])) tmp
    rw [hodd] at h1
    rw [List.cons_append, List.nil_append]
    cases hd : decodeGo (b :: List.flatten (List.replicate k [255, 255])) tmp with
    | none => simp [decodeGo]
    | some r => simp [hd] at h1
  | b0 :: b1 :: rest =>
    rw [List.cons_append, List.cons_append, decodeGo_cons, decodeGo_cons]
    by_cases hc : b0 * 256 + b1 = 65535
    · rw [if_neg (by omega), if_neg (by omega)]
      exact decodeGo_trailing rest _ k (Nat.mod_lt _ (by norm_num))
    · rw [if_pos hc, if_pos hc]
      rw [decodeGo_trailing rest 0 k (by norm_num)]

/-! The same helper lemmas at field width 4. -/

theorem encodeOne4_step (v : Nat) (h : 4294967295 ≤ v) :
    encodeOne4 v = 255 :: 255 :: 255 :: 255 :: encodeOne4 (v - 4294967295) := by
  rw [encodeOne4]
  rw [dif_pos h]

theorem encodeOne4_base (v : Nat) (h : ¬ 4294967295 ≤ v) :
    encodeOne4 v = [v / 16777216 % 256, v / 65536 % 256, v / 256 % 256, v % 256] := by
  rw [encodeOne4]
  rw [dif_neg h]

theorem encodeOne4_eq_spec (v : Nat) : encodeOne4 v = encodeOneSpec4 v := by
  induction v using Nat.strong_induction_on with
  | _ v ih =>
    by_cases h : 4294967295 ≤ v
    · have hq : v / 4294967295 = (v - 4294967295) / 4294967295 + 1 :=
        Nat.div_eq_sub_div (by omega) h
      have hm : v % 4294967295 = (v - 4294967295) % 4294967295 := Nat.mod_eq_sub_mod h
      rw [encodeOne4_step v h, ih (v - 4294967295) (by omega), encodeOneSpec4,
        encodeOneSpec4, hq, hm, List.replicate_succ, List.flatten_cons, List.append_assoc,
        List.cons_append, List.cons_append, List.cons_append, List.cons_append,
        List.nil_append]
    · have h1 : v / 4294967295 = 0 := Nat.div_eq_of_lt (by omega)
      have h2 : v % 4294967295 = v := Nat.mod_eq_of_lt (by omega)
      rw [encodeOne4_base v h, encodeOneSpec4, h1, h2]
      simp

theorem encodeVector4_cons (v : Nat) (s : List Nat) :
    encodeVector4 (v :: s) = encodeOne4 v ++ encodeVector4 s := by
  simp [encodeVector4]

theorem decodeGo4_cons (b0 b1 b2 b3 : Nat) (rest : List Nat) (tmp : Nat) :
    decodeGo4 (b0 :: b1 :: b2 :: b3 :: rest) tmp =
      if b0 * 16777216 + b1 * 65536 + b2 * 256 + b3 ≠ 4294967295 then
        (match decodeGo4 rest 0 with
         | some r =>
           some (((tmp + (b0 * 16777216 + b1 * 65536 + b2 * 256 + b3)) % 4294967296) :: r)
         | none => none)
      else decodeGo4 rest ((tmp + (b0 * 16777216 + b1 * 65536 + b2 * 256 + b3)) % 4294967296) := by
  rw [decodeGo4]

theorem decodeGo4_max (rest : List Nat) (tmp : Nat) :
    decodeGo4 (255 :: 255 :: 255 :: 255 :: rest) tmp =
      decodeGo4 rest ((tmp + 4294967295) % 4294967296) := by
  rw [decodeGo4_cons]
  norm_num

theorem decodeGo4_term (b0 b1 b2 b3 : Nat) (rest : List Nat) (tmp : Nat)
    (h : b0 * 16777216 + b1 * 65536 + b2 * 256 + b3 ≠ 4294967295) :
    decodeGo4 (b0 :: b1 :: b2 :: b3 :: rest) tmp =
      Option.map
        (fun r => ((tmp + (b0 * 16777216 + b1 * 65536 + b2 * 256 + b3)) % 4294967296) :: r)
        (decodeGo4 rest 0) := by
  rw [decodeGo4_cons, if_pos h]
  cases decodeGo4 rest 0 <;> rfl

theorem decodeGo4_run (q : Nat) (rest : List Nat) (tmp : Nat) (h : tmp < 4294967296) :
    decodeGo4 (List.flatten (List.replicate q [255, 255, 255, 255]) ++ rest) tmp =
      decodeGo4 rest ((tmp + q * 4294967295) % 4294967296) := by
  induction q generalizing tmp with
  | zero => simp [Nat.mod_eq_of_lt h]
  | succ n ih =>
    rw [List.replicate_succ, List.flatten_cons]
    simp only [List.append_assoc, List.cons_append, List.nil_append]
    rw [decodeGo4_max, ih ((tmp + 4294967295) % 4294967296) (Nat.mod_lt _ (by norm_num))]
    have harg : ((tmp + 4294967295) % 4294967296 + n * 4294967295) % 4294967296 =
        (tmp + (n + 1) * 4294967295) % 4294967296 := by omega
    rw [harg]

theorem decodeGo4_encodeOne4 (v : Nat) (rest : List Nat) (h : v < 4294967296) :
    decodeGo4 (encodeOne4 v ++ rest) 0 =
      Option.map (fun r => v :: r) (decodeGo4 rest 0) := by
  have m1 : v % 4294967295 % (256 * 256) =
      v % 4294967295 % 256 + 256 * (v % 4294967295 / 256 % 256) := Nat.mod_mul
  have m2 : v % 4294967295 % (65536 * 256) =
      v % 4294967295 % 65536 + 65536 * (v % 4294967295 / 65536 % 256) := Nat.mod_mul
  have m3 : v % 4294967295 % (16777216 * 256) =
      v % 4294967295 % 16777216 + 16777216 * (v % 4294967295 / 16777216 % 256) := Nat.mod_mul
  norm_num at m1 m2 m3
  have hr : v % 4294967295 / 16777216 % 256 * 16777216 + v % 4294967295 / 65536 % 256 * 65536 +
      v % 4294967295 / 256 % 256 * 256 + v % 4294967295 % 256 = v % 4294967295 := by
    omega
  rw [encodeOne4_eq_spec]
  unfold encodeOneSpec4
  rw [List.append_assoc, decodeGo4_run (v / 4294967295) _ 0 (by norm_num)]
  simp only [List.cons_append, List.nil_append]
  rw [decodeGo4_term _ _ _ _ _ _ (by rw [hr]; omega)]
  rw [hr]
  congr 1
  funext r
  congr 1
  omega

theorem decodeGo4_encodeVector4 (s : List Nat) (rest : List Nat)
    (h : ∀ v ∈ s, v < 4294967296) :
    decodeGo4 (encodeVector4 s ++ rest) 0 =
      Option.map (fun r => s ++ r) (decodeGo4 rest 0) := by
  induction s with
  | nil =>
    cases h2 : decodeGo4 rest 0 <;> simp [encodeVector4, h2]
  | cons v tl ih =>
    rw [encodeVector4_cons, List.append_assoc,
      decodeGo4_encodeOne4 v _ (h v (by simp)),
      ih (fun x hx => h x (by simp [hx]))]
    cases decodeGo4 rest 0 <;> rfl

theorem roundTrip4 (s : List Nat) (h : ∀ v ∈ s, v < 4294967296) :
    decodeGo4 (encodeVector4 s) 0 = some s := by
  have h1 := decodeGo4_encodeVector4 s [] h
  rw [List.append_nil] at h1
  rw [h1]
  simp [decodeGo4]

theorem decodeGo4_isSome (l : List Nat) (tmp : Nat) :
    (decodeGo4 l tmp).isSome = true ↔ l.length % 4 = 0 := by
  match l with
  | [] => simp [decodeGo4]
  | [b] => simp [decodeGo4]
  | [b, c] => simp [decodeGo4]
  | [b, c, d] => simp [decodeGo4]
  | b0 :: b1 :: b2 :: b3 :: rest =>
    rw [decodeGo4_cons]
    have ih0 := decodeGo4_isSome rest 0
    have hlen : (b0 :: b1 :: b2 :: b3 :: rest).length % 4 = rest.length % 4 := by
      simp [List.length]
      omega
    rw [hlen]
    by_cases hc : b0 * 16777216 + b1 * 65536 + b2 * 256 + b3 = 4294967295
    · rw [if_neg (by omega)]
      exact decodeGo4_isSome rest _
    · rw [if_pos hc]
      cases hrest : decodeGo4 rest 0 with
      | none => simpa [hrest] using ih0
      | some r => simpa [hrest] using ih0

theorem decodeGo4_trailing (x : List Nat) (tmp : Nat) (k : Nat) (h : tmp < 4294967296) :
    decodeGo4 (x ++ List.flatten (List.replicate k [255, 255, 255, 255])) tmp =
      decodeGo4 x tmp := by
  match x with
  | [] =>
    rw [List.nil_append]
    have h1 := decodeGo4_run k [] tmp h
    rw [List.append_nil] at h1
    rw [h1]
    simp [decodeGo4]
  | [b] =>
    have hodd : (b :: List.flatten (List.replicate k [255, 255, 255, 255])).length % 4
        = 1 := by
      simp [List.length_flatten, List.map_replicate]
      omega
    have h1 := decodeGo4_isSome (b :: List.flatten (List.replicate k [255, 255, 255, 255])) tmp
    rw [hodd] at h1
    rw [List.cons_append, List.nil_append]
    cases hd : decodeGo4 (b :: List.flatten (List.replicate k [255, 255, 255, 255])) tmp with
    | none => simp [decodeGo4]
    | some r => simp [hd] at h1
  | [b, c] =>
    have hodd : (b :: c :: List.flatten (List.replicate k [255, 255, 255, 255])).length % 4
        = 2 := by
      simp [List.length_flatten, List.map_replicate]
      omega
    have h1 := decodeGo4_isSome
      (b :: c :: List.flatten (List.replicate k [255, 255, 255, 255])) tmp
    rw [hodd] at h1
    simp only [List.cons_append, List.nil_append]
    cases hd : decodeGo4 (b :: c :: List.flatten (List.replicate k [255, 255, 255, 255])) tmp with
    | none => simp [decodeGo4]
    | some r => simp [hd] at h1
  | [b, c, d] =>
    have hodd : (b :: c :: d :: List.flatten (List.replicate k [255, 255, 255, 255])).length % 4
        = 3 := by
      simp [List.length_flatten, List.map_replicate]
      omega
    have h1 := decodeGo4_isSome
      (b :: c :: d :: List.flatten (List.replicate k [255, 255, 255, 255])) tmp
    rw [hodd] at h1
    simp only [List.cons_append, List.nil_append]
    cases hd : decodeGo4
        (b :: c :: d :: List.flatten (List.replicate k [255, 255, 255, 255])) tmp with
    | none => simp [decodeGo4]
    | some r => simp [hd] at h1
  | b0 :: b1 :: b2 :: b3 :: rest =>
    simp only [List.cons_append]
    rw [decodeGo4_cons, decodeGo4_cons]
    by_cases hc : b0 * 16777216 + b1 * 65536 + b2 * 256 + b3 = 4294967295
    · rw [if_neg (by omega), if_neg (by omega)]
      exact decodeGo4_trailing rest _ k (Nat.mod_lt _ (by norm_num))
    · rw [if_pos hc, if_pos hc]
      rw [decodeGo4_trailing rest 0 k (by norm_num)]

theorem toFields2_run (q : Nat) (a b : Nat) :
    toFields2 (List.flatten (List.replicate q [255, 255]) ++ [a, b]) =
      List.replicate q 65535 ++ [a * 256 + b] := by
  induction q with
  | zero => simp [toFields2]
  | succ n ih =>
    rw [List.replicate_succ, List.flatten_cons]
    simp only [List.append_assoc, List.cons_append, List.nil_append]
    rw [toFields2, ih, List.replicate_succ]
    norm_num

/-- The encoding of the single value 2^32 is a run of 65537 MAX fields and
the terminating field 1, since 2^32 = 65537 * 65535 + 1. -/
theorem encodeVector_at_big :
    encodeVector [4294967296] = List.flatten (List.replicate 65537 [255, 255]) ++ [0, 1] := by
  have h1 : encodeVector [4294967296] = encodeOne 4294967296 ++ encodeVector [] :=
    encodeVector_cons 4294967296 []
  have h2 : encodeVector [] = [] := rfl
  rw [h1, h2, List.append_nil, encodeOne_eq_spec, encodeOneSpec]

theorem decodeGo_at_big :
    decodeGo (List.flatten (List.replicate 65537 [255, 255]) ++ [0, 1]) 0 = some [0] := by
  rw [decodeGo_run 65537 [0, 1] 0 (by norm_num)]
  norm_num
  rw [decodeGo_term 0 1 [] 4294967295 (by norm_num)]
  simp [decodeGo]

theorem decodeSpecGo_at_big :
    decodeSpecGo (List.flatten (List.replicate 65537 [255, 255]) ++ [0, 1]) 0 =
      some [4294967296] := by
  rw [decodeSpecGo_run 65537 [0, 1] 0]
  norm_num
  rw [decodeSpecGo_cons]
  norm_num
  simp [decodeSpecGo]

/-! The claim theorems about the run-codec. -/

/-- C1 (amended): the 2-byte run codec round-trips every sequence whose
values are below 2^32: for such s, decoding the encoding of s yields
exactly s.  (As literally stated over all non-negative integers the claim
fails, because the decoder accumulates runs in a 32-bit unsigned int; see
the counterexample at the value 2^32.) -/
theorem decodeVector_encodeVector_of_lt (s : List Nat) (h : ∀ v ∈ s, v < 4294967296) :
    decodeVector (encodeVector s) [] = some s :=
  roundTrip2 s h

/-- Witness for C1 at the scenario C sequence [0, 65535, 65536, 131070]. -/
theorem decodeVector_encodeVector_scenarioC :
    decodeVector (encodeVector [0, 65535, 65536, 131070]) [] =
      some [0, 65535, 65536, 131070] :=
  decodeVector_encodeVector_of_lt [0, 65535, 65536, 131070] (by decide)

/-- C1 counterexample: the round-trip fails at the single value 2^32: its
encoding is a run of 65537 MAX fields plus a terminating 1, and the 32-bit
accumulator of decodeVector wraps, returning [0] instead of [4294967296]. -/
theorem decodeVector_encodeVector_cx :
    decodeVector (encodeVector [4294967296]) [] ≠ some [4294967296] := by
  rw [decodeVector, encodeVector_at_big, decodeGo_at_big]
  decide

/-- C2 (amended): decodeVector implements the specified decode algorithm up
to the width of its accumulator: it equals the specification algorithm
(2-byte big-endian fields, runs of MAX accumulated, total emitted on a
field strictly below MAX) with every emitted total reduced modulo 2^32,
because the running sum is kept in a 32-bit unsigned int. -/
theorem decodeVector_eq_specDecode_mod (input : List Nat) :
    decodeVector input [] =
      Option.map (List.map (fun x => x % 4294967296)) (decodeVectorSpec input) := by
  have h := decodeGo_eq_specGo input 0
  norm_num at h
  rw [decodeVector, decodeVectorSpec]
  exact h

/-- C2 counterexample: on the input consisting of 65537 MAX fields followed
by the field 1 the code returns [0] while the specified algorithm (with an
unbounded running sum) returns [4294967296], so the two differ. -/
theorem decodeVector_specDecode_cx :
    decodeVector (List.flatten (List.replicate 65537 [255, 255]) ++ [0, 1]) [] ≠
      decodeVectorSpec (List.flatten (List.replicate 65537 [255, 255]) ++ [0, 1]) := by
  rw [decodeVector, decodeVectorSpec, decodeGo_at_big, decodeSpecGo_at_big]
  decide

/-- C3: encodeVector implements the specified encode algorithm: every input
value v contributes the field MAX repeated once per subtraction of MAX
(that is, v / 65535 times) followed by one 2-byte big-endian field holding
the remainder v mod 65535; in particular encoding the single value 0
produces exactly one zero field, the two bytes 0, 0. -/
theorem encodeVector_implements_spec :
    (∀ s : List Nat, encodeVector s = (s.map encodeOneSpec).flatten) ∧
      encodeVector [0] = [0, 0] := by
  constructor
  · intro s
    unfold encodeVector
    have h : s.map encodeOne = s.map encodeOneSpec := by
      induction s with
      | nil => rfl
      | cons v tl ih => simp [ih, encodeOne_eq_spec]
    rw [h]
  · simp [encodeVector, encodeOne_eq_spec, encodeOneSpec]

/-- C4: for every value v at least MAX = 0xFFFF, the field sequence emitted
by encodeVector for [v] is a nonempty run of MAX fields (one per
subtraction) followed by one terminating field, and the terminating field
holds v mod 65535, which is strictly below MAX. -/
theorem encodeVector_max_run (v : Nat) (h : 65535 ≤ v) :
    toFields2 (encodeVector [v]) = List.replicate (v / 65535) 65535 ++ [v % 65535] ∧
      1 ≤ v / 65535 ∧ v % 65535 < 65535 := by
  refine ⟨?_, by omega, by omega⟩
  have he : encodeVector [v] = List.flatten (List.replicate (v / 65535) [255, 255]) ++
      [v % 65535 / 256, v % 65535 % 256] := by
    simp [encodeVector, encodeOne_eq_spec, encodeOneSpec]
  rw [he, toFields2_run]
  have hb : v % 65535 / 256 * 256 + v % 65535 % 256 = v % 65535 := by omega
  rw [hb]

/-- Witness for C4 at v = 65535, the field maximum itself: the encoding is
one MAX field followed by a zero terminating field. -/
theorem encodeVector_max_run_witness :
    toFields2 (encodeVector [65535]) =
      List.replicate (65535 / 65535) 65535 ++ [65535 % 65535] ∧
      1 ≤ 65535 / 65535 ∧ 65535 % 65535 < 65535 :=
  encodeVector_max_run 65535 (by decide)

/-- C5 (amended): the 4-byte form is the same run-escape scheme with MAX =
0xFFFFFFFF, and round-trips every sequence whose values are below 2^32,
including 0 and 0xFFFFFFFF itself.  (As literally stated over all
non-negative integers the claim fails: the decoder accumulator is a 32-bit
unsigned int, so every value at least 2^32 comes back reduced modulo 2^32;
see the counterexample.) -/
theorem decodeVector4_encodeVector4_of_lt (s : List Nat) (h : ∀ v ∈ s, v < 4294967296) :
    decodeVector4 (encodeVector4 s) [] = some s :=
  roundTrip4 s h

/-- Witness for C5 at [0, 4294967295], containing 0 and the field maximum. -/
theorem decodeVector4_encodeVector4_scenario :
    decodeVector4 (encodeVector4 [0, 4294967295]) [] = some [0, 4294967295] :=
  decodeVector4_encodeVector4_of_lt [0, 4294967295] (by decide)

/-- C5 counterexample: the 4-byte round-trip fails at the single value 2^32,
whose encoding is one MAX field plus a terminating 1; the decoder wraps its
32-bit accumulator and returns [0] instead of [4294967296]. -/
theorem decodeVector4_encodeVector4_cx :
    decodeVector4 (encodeVector4 [4294967296]) [] ≠ some [4294967296] := by
  have he : encodeVector4 [4294967296] = [255, 255, 255, 255, 0, 0, 0, 1] := by
    simp [encodeVector4, encodeOne4_eq_spec, encodeOneSpec4]
  rw [decodeVector4, he]
  decide

/-- C8: the decoded result depends only on the input byte string: both
decodeVector and decodeVector4 clear the result container first, so two
calls on the same input with arbitrary different prior contents of the
result container produce identical final contents. -/
theorem decode_result_independent_of_prior (input r1 r2 : List Nat) :
    decodeVector input r1 = decodeVector input r2 ∧
      decodeVector4 input r1 = decodeVector4 input r2 :=
  ⟨rfl, rfl⟩

/-- C9: in the total embedding where reading past the end of the input
returns none, decodeVector succeeds exactly when the input length is a
multiple of 2 and decodeVector4 exactly when it is a multiple of 4; the
final iteration of the loop indexes past the last byte in all other
cases. -/
theorem decode_isSome_iff_aligned (input : List Nat) :
    ((decodeVector input []).isSome = true ↔ input.length % 2 = 0) ∧
      ((decodeVector4 input []).isSome = true ↔ input.length % 4 = 0) :=
  ⟨decodeGo_isSome input 0, decodeGo4_isSome input 0⟩

theorem encodeOne_length (v : Nat) : (encodeOne v).length = 2 * (v / 65535) + 2 := by
  rw [encodeOne_eq_spec, encodeOneSpec]
  simp [List.length_append, List.length_flatten, List.map_replicate, List.sum_replicate]
  omega

theorem encodeVector_length_mod (s : List Nat) : (encodeVector s).length % 2 = 0 := by
  induction s with
  | nil => rfl
  | cons v tl ih =>
    rw [encodeVector_cons, List.length_append, encodeOne_length]
    omega

theorem encodeOne4_length (v : Nat) :
    (encodeOne4 v).length = 4 * (v / 4294967295) + 4 := by
  rw [encodeOne4_eq_spec, encodeOneSpec4]
  simp [List.length_append, List.length_flatten, List.map_replicate, List.sum_replicate]
  omega

theorem encodeVector4_length_mod (s : List Nat) : (encodeVector4 s).length % 4 = 0 := by
  induction s with
  | nil => rfl
  | cons v tl ih =>
    rw [encodeVector4_cons, List.length_append, encodeOne4_length]
    omega

/-- C10: a trailing incomplete run is silently discarded, for every encoded
sequence s and both widths, with no bound on the encoded values: appending
one or more MAX fields with no terminating sub-maximum field to the
well-formed encoding of s leaves the decoded result exactly the values the
decoder completes on that well-formed prefix (the decode of the prefix
alone), the pending accumulator is never emitted, and decoding still runs
to completion without failing.  (When additionally every value of s is
below 2^32, the completed values are exactly s itself, as proved for
claims C1 and C5.) -/
theorem decode_trailing_run_discarded (s : List Nat) (k : Nat) (hk : 1 ≤ k) :
    decodeVector (encodeVector s ++ List.flatten (List.replicate k [255, 255])) [] =
        decodeVector (encodeVector s) [] ∧
      (decodeVector (encodeVector s ++ List.flatten (List.replicate k [255, 255])) []).isSome
        = true ∧
      decodeVector4 (encodeVector4 s ++ List.flatten (List.replicate k [255, 255, 255, 255])) []
        = decodeVector4 (encodeVector4 s) [] ∧
      (decodeVector4 (encodeVector4 s ++
          List.flatten (List.replicate k [255, 255, 255, 255])) []).isSome = true := by
  simp only [decodeVector, decodeVector4]
  have e2 := decodeGo_trailing (encodeVector s) 0 k (by norm_num)
  have e4 := decodeGo4_trailing (encodeVector4 s) 0 k (by norm_num)
  refine ⟨e2, ?_, e4, ?_⟩
  · rw [e2]
    exact (decodeGo_isSome _ 0).mpr (encodeVector_length_mod s)
  · rw [e4]
    exact (decodeGo4_isSome _ 0).mpr (encodeVector4_length_mod s)

/-- Witness for C10 at the sequence [7] with one trailing MAX field. -/
theorem decode_trailing_run_discarded_witness :
    decodeVector (encodeVector [7] ++ List.flatten (List.replicate 1 [255, 255])) [] =
        decodeVector (encodeVector [7]) [] ∧
      (decodeVector (encodeVector [7] ++ List.flatten (List.replicate 1 [255, 255])) []).isSome
        = true ∧
      decodeVector4 (encodeVector4 [7] ++ List.flatten (List.replicate 1 [255, 255, 255, 255])) []
        = decodeVector4 (encodeVector4 [7]) [] ∧
      (decodeVector4 (encodeVector4 [7] ++
          List.flatten (List.replicate 1 [255, 255, 255, 255])) []).isSome = true :=
  decode_trailing_run_discarded [7] 1 (by decide)

/-! Helper lemmas about the packed codec model. -/

theorem natToBytesBE_length (w n : Nat) : (natToBytesBE w n).length = w := by
  induction w generalizing n with
  | zero => rfl
  | succ k ih => simp [natToBytesBE, ih]

theorem fromBytesBE_aux (w n a : Nat) :
    List.foldl (fun x b => x * 256 + b) a (natToBytesBE w n) = a * 256 ^ w + n % 256 ^ w := by
  induction w generalizing a with
  | zero => simp [natToBytesBE, Nat.mod_one]
  | succ k ih =>
    rw [natToBytesBE, List.foldl_cons, ih]
    have hm : n % (256 ^ k * 256) = n % 256 ^ k + 256 ^ k * (n / 256 ^ k % 256) := Nat.mod_mul
    have hp : 256 ^ (k + 1) = 256 ^ k * 256 := by rw [Nat.pow_succ]
    rw [hp, hm]
    ring

theorem fromBytesBE_natToBytesBE (w n : Nat) :
    fromBytesBE (natToBytesBE w n) = n % 256 ^ w := by
  have h := fromBytesBE_aux w n 0
  rw [fromBytesBE]
  rw [h]
  omega

theorem readBE_append (w n : Nat) (rest : List Nat) :
    readBE w (natToBytesBE w n ++ rest) = some (n % 256 ^ w, rest) := by
  have hlen : (natToBytesBE w n).length = w := natToBytesBE_length w n
  have ht : (natToBytesBE w n ++ rest).take w = natToBytesBE w n := by
    have h1 := List.take_left (natToBytesBE w n) rest
    rwa [hlen] at h1
  have hd : (natToBytesBE w n ++ rest).drop w = rest := by
    have h1 := List.drop_left (natToBytesBE w n) rest
    rwa [hlen] at h1
  simp [readBE, ht, hd, fromBytesBE_natToBytesBE, hlen]

mutual

theorem toPacked_length (v : Value) : (toPacked v).length = packedSize v := by
  match v with
  | .null => rfl
  | .bool b => rfl
  | .int i => simp [toPacked, packedSize, natToBytesBE_length]
  | .dbl bits => simp [toPacked, packedSize, natToBytesBE_length]
  | .str s =>
    simp [toPacked, packedSize, natToBytesBE_length]
    omega
  | .arr items =>
    simp [toPacked, packedSize, packItems_length items]
    omega
  | .obj entries =>
    simp [toPacked, packedSize, packEntries_length entries]
    omega
termination_by sizeOf v

theorem packItems_length (l : List Value) : (packItems l).length = sizeItems l := by
  match l with
  | [] => rfl
  | v :: rest =>
    simp [packItems, sizeItems, toPacked_length v, packItems_length rest]
termination_by sizeOf l

theorem packEntries_length (l : List (List Nat × Value)) :
    (packEntries l).length = sizeEntries l := by
  match l with
  | [] => rfl
  | (k, x) :: rest =>
    simp [packEntries, sizeEntries, toPacked_length x, packEntries_length rest,
      natToBytesBE_length]
    omega
termination_by sizeOf l

end

/-- C6: for every Value, packedSize equals the byte length of the string
returned by toPacked (spec-modelled: the bodies of toPacked and packedSize
are not under src and were modelled from specification section 4.3). -/
theorem packedSize_eq_length_toPacked (V : Value) : packedSize V = (toPacked V).length :=
  (toPacked_length V).symm

theorem toPacked_head (v : Value) : ∃ t r, toPacked v = t :: r ∧ t < 7 := by
  match v with
  | .null => exact ⟨0, [], rfl, by norm_num⟩
  | .bool b => exact ⟨1, [if b then 1 else 0], rfl, by norm_num⟩
  | .int i => exact ⟨2, natToBytesBE 8 (i % 18446744073709551616).toNat, rfl, by norm_num⟩
  | .dbl bits => exact ⟨3, natToBytesBE 8 bits, rfl, by norm_num⟩
  | .str s => exact ⟨4, natToBytesBE 4 s.length ++ s, rfl, by norm_num⟩
  | .arr items => exact ⟨5, packItems items ++ [238], rfl, by norm_num⟩
  | .obj entries => exact ⟨6, packEntries entries ++ [255, 255], rfl, by norm_num⟩

theorem toPacked_length_pos (v : Value) : 1 ≤ (toPacked v).length := by
  obtain ⟨t, r, heq, _⟩ := toPacked_head v
  rw [heq]
  simp

mutual

theorem needV_le (v : Value) : needV v ≤ (toPacked v).length := by
  match v with
  | .null => simp [needV, toPacked]
  | .bool b => simp [needV, toPacked]
  | .int i => simp [needV, toPacked]
  | .dbl bits => simp [needV, toPacked]
  | .str s => simp [needV, toPacked]
  | .arr items =>
    have h1 := needItems_le items
    simp only [needV, toPacked]
    simp [List.length_append]
    omega
  | .obj entries =>
    have h1 := needEntries_le entries
    simp only [needV, toPacked]
    simp [List.length_append]
    omega
termination_by sizeOf v

theorem needItems_le (l : List Value) : needItems l ≤ (packItems l).length + 1 := by
  match l with
  | [] => simp [needItems, packItems]
  | v :: rest =>
    have h1 := needV_le v
    have h2 := needItems_le rest
    have h3 := toPacked_length_pos v
    simp only [needItems, packItems]
    simp [List.length_append]
    omega
termination_by sizeOf l

theorem needEntries_le (l : List (List Nat × Value)) :
    needEntries l ≤ (packEntries l).length + 1 := by
  match l with
  | [] => simp [needEntries, packEntries]
  | (k, x) :: rest =>
    have h1 := needV_le x
    have h2 := needEntries_le rest
    have h3 := toPacked_length_pos x
    simp only [needEntries, packEntries]
    simp [List.length_append]
    omega
termination_by sizeOf l

end

theorem readBE_two (a b : Nat) (rest : List Nat) :
    readBE 2 (a :: b :: rest) = some (a * 256 + b, rest) := by
  have h1 : fromBytesBE [a, b] = a * 256 + b := by
    rw [fromBytesBE]
    simp [List.foldl_cons]
  simp [readBE, h1]

theorem needV_pos (v : Value) : 1 ≤ needV v := by
  cases v <;> simp [needV]

theorem needItems_pos (l : List Value) : 1 ≤ needItems l := by
  cases l <;> simp [needItems]

theorem needEntries_pos (l : List (List Nat × Value)) : 1 ≤ needEntries l := by
  cases l with
  | nil => simp [needEntries]
  | cons e tl =>
    cases e
    simp [needEntries]

theorem exists_succ_of_pos (fuel k : Nat) (h : k ≤ fuel) (hk : 1 ≤ k) :
    ∃ f, fuel = f + 1 := by
  cases fuel
  · omega
  · exact ⟨_, rfl⟩

mutual

theorem parseVal_toPacked (v : Value) (rest : List Nat) (fuel : Nat)
    (hwf : wfValue v = true) (hfuel : needV v ≤ fuel) :
    parseVal fuel (toPacked v ++ rest) = some (v, rest) := by
  obtain ⟨f, rfl⟩ := exists_succ_of_pos fuel _ hfuel (needV_pos v)
  cases v with
  | null => simp [toPacked, parseVal]
  | bool b => cases b <;> simp [toPacked, parseVal]
  | int i =>
    have hrange : -9223372036854775808 ≤ i ∧ i < 9223372036854775808 := by
      simp only [wfValue, decide_eq_true_eq] at hwf
      exact hwf
    have hm : (i % 18446744073709551616).toNat < 18446744073709551616 := by omega
    simp only [toPacked, List.cons_append]
    simp only [parseVal]
    norm_num
    rw [readBE_append 8 (i % 18446744073709551616).toNat rest]
    have hp : (256 : Nat) ^ 8 = 18446744073709551616 := by norm_num
    rw [hp, Nat.mod_eq_of_lt hm]
    have hi : (if ((i % 18446744073709551616).toNat : Nat) < 9223372036854775808
        then (((i % 18446744073709551616).toNat : Nat) : Int)
        else (((i % 18446744073709551616).toNat : Nat) : Int) - 18446744073709551616) = i := by
      split <;> omega
    show some (Value.int (if (i % 18446744073709551616).toNat < 9223372036854775808
        then (((i % 18446744073709551616).toNat : Nat) : Int)
        else (((i % 18446744073709551616).toNat : Nat) : Int) - 18446744073709551616), rest) =
      some (Value.int i, rest)
    rw [hi]
  | dbl bits =>
    have hb : bits < 18446744073709551616 := by
      simp only [wfValue, decide_eq_true_eq] at hwf
      exact hwf
    simp only [toPacked, List.cons_append]
    simp only [parseVal]
    norm_num
    rw [readBE_append 8 bits rest]
    have hp : (256 : Nat) ^ 8 = 18446744073709551616 := by norm_num
    rw [hp, Nat.mod_eq_of_lt hb]
  | str s =>
    have hs : s.length < 4294967296 := by
      simp only [wfValue, Bool.and_eq_true, decide_eq_true_eq] at hwf
      exact hwf.1
    simp only [toPacked, List.cons_append, List.append_assoc]
    simp only [parseVal]
    norm_num
    rw [readBE_append 4 s.length (s ++ rest)]
    have hp : (256 : Nat) ^ 4 = 4294967296 := by norm_num
    rw [hp, Nat.mod_eq_of_lt hs]
    have hle : s.length ≤ (s ++ rest).length := by
      rw [List.length_append]
      omega
    show (if s.length ≤ (s ++ rest).length
        then some (Value.str ((s ++ rest).take s.length), (s ++ rest).drop s.length)
        else none) = some (Value.str s, rest)
    rw [if_pos hle, List.take_left, List.drop_left]
  | arr items =>
    have hwf2 : wfItems items = true := by
      simp only [wfValue] at hwf
      exact hwf
    have hfuel2 : needItems items ≤ f := by
      simp only [needV] at hfuel
      omega
    simp only [toPacked, List.cons_append]
    simp only [parseVal]
    norm_num
    simp only [parseItems_packItems items rest f hwf2 hfuel2]
  | obj entries =>
    have hwf2 : wfEntries entries = true := by
      simp only [wfValue, Bool.and_eq_true] at hwf
      exact hwf.2
    have hfuel2 : needEntries entries ≤ f := by
      simp only [needV] at hfuel
      omega
    simp only [toPacked, List.cons_append]
    simp only [parseVal]
    norm_num
    simp only [parseEntries_packEntries entries rest f hwf2 hfuel2]
termination_by sizeOf v

theorem parseItems_packItems (l : List Value) (rest : List Nat) (fuel : Nat)
    (hwf : wfItems l = true) (hfuel : needItems l ≤ fuel) :
    parseItems fuel (packItems l ++ 238 :: rest) = some (l, rest) := by
  obtain ⟨f, rfl⟩ := exists_succ_of_pos fuel _ hfuel (needItems_pos l)
  cases l with
  | nil => simp [packItems, parseItems]
  | cons v tl =>
    have hwfv : wfValue v = true ∧ wfItems tl = true := by
      simp only [wfItems, Bool.and_eq_true] at hwf
      exact hwf
    have hf1 : needV v ≤ f := by
      simp only [needItems] at hfuel
      omega
    have hf2 : needItems tl ≤ f := by
      simp only [needItems] at hfuel
      omega
    obtain ⟨t, r0, heq, hlt⟩ := toPacked_head v
    have hshape : packItems (v :: tl) ++ 238 :: rest =
        t :: (r0 ++ (packItems tl ++ 238 :: rest)) := by
      rw [packItems, heq]
      simp
    rw [hshape]
    simp only [parseItems]
    rw [if_neg (by omega)]
    have hback : t :: (r0 ++ (packItems tl ++ 238 :: rest)) =
        toPacked v ++ (packItems tl ++ 238 :: rest) := by
      rw [heq]
      simp
    rw [hback]
    simp only [parseVal_toPacked v (packItems tl ++ 238 :: rest) f hwfv.1 hf1,
      parseItems_packItems tl rest f hwfv.2 hf2]
termination_by sizeOf l

theorem parseEntries_packEntries :
    ∀ (l : List (List Nat × Value)) (rest : List Nat) (fuel : Nat),
      wfEntries l = true → needEntries l ≤ fuel →
      parseEntries fuel (packEntries l ++ 255 :: 255 :: rest) = some (l, rest)
  | [], rest, fuel, hwf, hfuel => by
    obtain ⟨f, rfl⟩ := exists_succ_of_pos fuel _ hfuel (needEntries_pos [])
    simp only [packEntries, List.nil_append, parseEntries]
    rw [readBE_two 255 255 rest]
    norm_num
  | (k, x) :: tl, rest, fuel, hwf, hfuel => by
    obtain ⟨f, rfl⟩ := exists_succ_of_pos fuel _ hfuel (needEntries_pos ((k, x) :: tl))
    have hwfx : k.length < 65535 ∧ wfValue x = true ∧ wfEntries tl = true := by
      simp only [wfEntries, Bool.and_eq_true, decide_eq_true_eq] at hwf
      exact ⟨hwf.1.1.1, hwf.1.2, hwf.2⟩
    have hf1 : needV x ≤ f := by
      simp only [needEntries] at hfuel
      omega
    have hf2 : needEntries tl ≤ f := by
      simp only [needEntries] at hfuel
      omega
    have hshape : packEntries ((k, x) :: tl) ++ 255 :: 255 :: rest =
        natToBytesBE 2 k.length ++ (k ++ (toPacked x ++ (packEntries tl ++ 255 :: 255 :: rest))) := by
      rw [packEntries]
      simp
    rw [hshape]
    simp only [parseEntries]
    rw [readBE_append 2 k.length _]
    have hp : (256 : Nat) ^ 2 = 65536 := by norm_num
    have hmod : k.length % 256 ^ 2 = k.length := by
      rw [hp]
      omega
    rw [hmod]
    have hne : ¬ (k.length = 65535) := by omega
    have hle : k.length ≤ (k ++ (toPacked x ++ (packEntries tl ++ 255 :: 255 :: rest))).length := by
      rw [List.length_append]
      omega
    simp only [hne, ite_false, if_pos hle, List.take_left, List.drop_left,
      parseVal_toPacked x (packEntries tl ++ 255 :: 255 :: rest) f hwfx.2.1 hf1,
      parseEntries_packEntries tl rest f hwfx.2.2 hf2]
termination_by l => sizeOf l

end

/-- C7: for every Value constructible from the data model (wfValue), decoding
the packed encoding yields a structurally equal Value: fromPacked (toPacked V)
reproduces exactly the tree V (spec-modelled: the packed codec bodies are not
under src and were modelled from specification section 4.3). -/
theorem fromPacked_toPacked_of_wf (V : Value) (h : wfValue V = true) :
    fromPacked (toPacked V) = some V := by
  rw [fromPacked]
  have hfuel : needV V ≤ (toPacked V).length + 1 := by
    have h1 := needV_le V
    omega
  have h1 := parseVal_toPacked V [] ((toPacked V).length + 1) h hfuel
  rw [List.append_nil] at h1
  rw [h1]

/-- Witness for C7 at the object mapping the one-byte key 120 to the
integer 1 (the packed form of the object written in text as x maps to 1). -/
theorem fromPacked_toPacked_witness :
    fromPacked (toPacked (Value.obj [([120], Value.int 1)])) =
      some (Value.obj [([120], Value.int 1)]) :=
  fromPacked_toPacked_of_wf (Value.obj [([120], Value.int 1)]) (by
    simp [wfValue, wfEntries, keysSorted])

end JSON
